import Mathlib

/-!
Verification of the deepnog data pipeline (`deepnog/data/dataset.py`).

The file shallowly embeds the four algorithmic components of the module —
the vocabulary builder `gen_amino_acid_vocab`, the batch collator
`collate_sequences`, the shuffle-buffer stage `ShuffledProteinDataset.__iter__`,
and the sharded record iterator `ProteinIterator.__next__` — as executable
Lean definitions, and proves the specified properties about them.

Modelling conventions:
* Python strings are lists of characters (`List Char` / `String`).
* Python dicts keyed by characters are functions `Char → Option Nat`,
  built by sequential update exactly as the source loops do (later
  assignments overwrite earlier ones).
* `np.random` draws are modelled by an oracle `rand : Nat → Nat` indexed by
  the call number; a draw `np.random.randint(0, n)` (respectively
  `np.random.choice(n)`) with `n ≥ 1` is `rand i % n`, which ranges over
  exactly `[0, n)` as the oracle varies.  A draw with `n ≤ 0` raises
  `ValueError`, modelled by an `Option`/`Except` failure value.
* Exceptions (`StopIteration`, `NotImplementedError`, `IndexError`,
  `ValueError`) are explicit `Option`/`Except` results.
-/

namespace Deepnog

/-! ## Records and sequence tuples

A raw record from the underlying `SeqIO` source: an id and a residue
string.  This is the `(id, residues)` interface the spec gives for the
record source adapter. -/

structure Record where
  id : String
  seq : String
  deriving DecidableEq, Repr

/-- The `sequence` namedtuple of `dataset.py`
(`index`, `id`, `string`, `encoded`, `label`). -/
structure SequenceTuple where
  index : Int
  id : String
  string : String
  encoded : List Nat
  label : Option Int
  deriving DecidableEq, Repr

/-! ## Vocabulary builder (`gen_amino_acid_vocab`) -/

/-- Python dict assignment `m[k] = v`: later writes overwrite earlier ones. -/
def updateKey (m : Char → Option Nat) (k : Char) (v : Nat) : Char → Option Nat :=
  fun c => if c = k then some v else m c

/-- The loop body of `gen_amino_acid_vocab`:
`for i, aa in enumerate(alphabet): for key in [aa.upper(), aa.lower()]:
aminoacid_to_ix[key] = i + 1`. -/
def vocabAux : List Char → Nat → (Char → Option Nat) → (Char → Option Nat)
  | [], _, m => m
  | aa :: rest, i, m =>
      vocabAux rest (i + 1)
        (updateKey (updateKey m aa.toUpper (i + 1)) aa.toLower (i + 1))

/-- Function `gen_amino_acid_vocab(alphabet)` from `dataset.py` lines 152–165:
maps the `i`-th alphabet letter, both upper- and lower-case, to `i + 1`.
The alphabet string is modelled as its list of characters. -/
def gen_amino_acid_vocab (alphabet : List Char) : Char → Option Nat :=
  vocabAux alphabet 0 (fun _ => none)

/-- The per-character lookup used at `dataset.py` line 301:
`self.vocab.get(c, 0)` — symbols absent from the vocabulary encode to `0`. -/
def encodeChar (vocab : Char → Option Nat) (c : Char) : Nat :=
  (vocab c).getD 0

/-- The dict keys written for one alphabet letter. -/
def letterKeys (aa : Char) : List Char := [aa.toUpper, aa.toLower]

/-- Index (0-based) of the last alphabet letter whose key set contains `c`,
mirroring "last dict write wins". -/
def lastKeyIdxAux : List Char → Nat → Char → Option Nat
  | [], _, _ => none
  | aa :: rest, i, c =>
      match lastKeyIdxAux rest (i + 1) c with
      | some j => some j
      | none => if c ∈ letterKeys aa then some i else none

def lastKeyIdx (alphabet : List Char) (c : Char) : Option Nat :=
  lastKeyIdxAux alphabet 0 c

/-- The vocabulary lookup resolves to the last letter that wrote the key:
`vocabAux` is characterised by `lastKeyIdxAux`. -/
theorem vocabAux_eq_lastKeyIdxAux (rest : List Char) (i : Nat)
    (m : Char → Option Nat) (c : Char) :
    vocabAux rest i m c =
      match lastKeyIdxAux rest i c with
      | some j => some (j + 1)
      | none => m c := by
  induction rest generalizing i m with
  | nil => simp [vocabAux, lastKeyIdxAux]
  | cons aa rest ih =>
      simp only [vocabAux, lastKeyIdxAux, ih]
      cases h : lastKeyIdxAux rest (i + 1) c with
      | some j => simp
      | none =>
          simp only [letterKeys, List.mem_cons, List.mem_singleton,
            List.not_mem_nil, or_false]
          by_cases hu : c = aa.toUpper <;> by_cases hl : c = aa.toLower <;>
            simp [updateKey, hu, hl]

theorem gen_amino_acid_vocab_eq_lastKeyIdx (alphabet : List Char) (c : Char) :
    gen_amino_acid_vocab alphabet c =
      match lastKeyIdx alphabet c with
      | some j => some (j + 1)
      | none => none := by
  simpa [gen_amino_acid_vocab, lastKeyIdx] using
    vocabAux_eq_lastKeyIdxAux alphabet 0 (fun _ => none) c

theorem lastKeyIdxAux_eq_none (alist : List Char) (i : Nat) (c : Char) :
    lastKeyIdxAux alist i c = none ↔ ∀ aa ∈ alist, c ∉ letterKeys aa := by
  induction alist generalizing i with
  | nil => simp [lastKeyIdxAux]
  | cons aa rest ih =>
      simp only [lastKeyIdxAux]
      cases h : lastKeyIdxAux rest (i + 1) c with
      | some j =>
          have hex : ¬ ∀ bb ∈ rest, c ∉ letterKeys bb := by
            intro hall
            rw [(ih (i + 1)).mpr hall] at h
            exact Option.noConfusion h
          simp only [reduceCtorEq, false_iff]
          intro hall
          exact hex fun bb hbb => hall bb (List.mem_cons_of_mem _ hbb)
      | none =>
          have hrest := (ih (i + 1)).mp h
          by_cases hm : c ∈ letterKeys aa <;> simp_all

theorem lastKeyIdxAux_eq_some (alist : List Char) (i : Nat) (c : Char) (j : Nat)
    (h : lastKeyIdxAux alist i c = some j) :
    ∃ k, ∃ hk : k < alist.length, j = i + k ∧ c ∈ letterKeys (alist.get ⟨k, hk⟩) := by
  induction alist generalizing i j with
  | nil => simp [lastKeyIdxAux] at h
  | cons aa rest ih =>
      simp only [lastKeyIdxAux] at h
      cases hr : lastKeyIdxAux rest (i + 1) c with
      | some j2 =>
          rw [hr] at h
          simp only [Option.some.injEq] at h
          subst h
          obtain ⟨k, hk, hj2, hmem⟩ := ih (i + 1) j2 hr
          exact ⟨k + 1, by simpa using Nat.succ_lt_succ hk, by omega, by simpa using hmem⟩
      | none =>
          rw [hr] at h
          by_cases hm : c ∈ letterKeys aa
          · simp only [hm, if_pos, Option.some.injEq] at h
            exact ⟨0, Nat.succ_pos _, by omega, by simpa using hm⟩
          · simp [hm] at h

theorem lastKeyIdxAux_unique (alist : List Char) (c : Char) (k : Nat)
    (hk : k < alist.length) (hm : c ∈ letterKeys (alist.get ⟨k, hk⟩))
    (hu : ∀ k2 (hk2 : k2 < alist.length), k2 ≠ k →
      c ∉ letterKeys (alist.get ⟨k2, hk2⟩)) (i : Nat) :
    lastKeyIdxAux alist i c = some (i + k) := by
  induction alist generalizing i k with
  | nil => exact absurd hk (by simp)
  | cons aa rest ih =>
      simp only [lastKeyIdxAux]
      cases k with
      | zero =>
          have hnone : lastKeyIdxAux rest (i + 1) c = none := by
            rw [lastKeyIdxAux_eq_none]
            intro bb hbb
            obtain ⟨⟨k2, hk2⟩, hbbeq⟩ := List.mem_iff_get.mp hbb
            have := hu (k2 + 1) (by simpa using Nat.succ_lt_succ hk2)
              (Nat.succ_ne_zero _)
            simpa [← hbbeq] using this
          rw [hnone]
          simpa using hm
      | succ k0 =>
          have hk0 : k0 < rest.length := by simpa using Nat.lt_of_succ_lt_succ hk
          have hrec := ih k0 hk0 (by simpa using hm)
            (fun k2 hk2 hne => by
              have := hu (k2 + 1) (by simpa using Nat.succ_lt_succ hk2)
                (by omega)
              simpa using this) (i + 1)
          rw [hrec]
          simp only [Option.some.injEq]
          omega

/-- The claim C7 as stated is false: `gen_amino_acid_vocab` on the
duplicated alphabet `"AA"` returns a mapping (it does not fail), and the
second occurrence has silently overwritten the first letter's code `1`
with code `2`. -/
theorem C7_counterexample :
    gen_amino_acid_vocab ['A', 'A'] 'A' = some 2 ∧
    gen_amino_acid_vocab ['A', 'A'] 'A' ≠ some 1 := by
  constructor <;> decide

/-- Claim C7, amended: for every alphabet — including those with letters
repeated after case folding — vocabulary construction returns a mapping
(it never fails); on repeated letters the later occurrence silently
overwrites the earlier letter's code: every lookup resolves to the *last*
alphabet position that wrote the key, offset by one. -/
theorem C7_vocab_last_write_wins (alphabet : List Char) (c : Char) :
    gen_amino_acid_vocab alphabet c = (lastKeyIdx alphabet c).map (· + 1) := by
  rw [gen_amino_acid_vocab_eq_lastKeyIdx]
  cases lastKeyIdx alphabet c <;> simp

/-- Claim C8: for every alphabet with no repeated letters after case
folding (pairwise disjoint upper/lower key sets), the vocabulary maps the
upper-case and lower-case form of the `i`-th letter to the same code
`i + 1`; the codes are a bijection from the alphabet letters onto
`[1, |alphabet|]` (code `0` is never assigned); and any symbol outside the
alphabet is encoded to `0` by the `vocab.get(c, 0)` lookup used in
`ProteinIterator.__next__`. -/
theorem C8_vocab_bijection (alphabet : List Char)
    (hdisj : alphabet.Pairwise (fun a b => ∀ c, c ∈ letterKeys a → c ∉ letterKeys b)) :
    (∀ (i : Nat) (hi : i < alphabet.length),
        gen_amino_acid_vocab alphabet (alphabet.get ⟨i, hi⟩).toUpper = some (i + 1) ∧
        gen_amino_acid_vocab alphabet (alphabet.get ⟨i, hi⟩).toLower = some (i + 1)) ∧
    (∀ (i j : Nat) (hi : i < alphabet.length) (hj : j < alphabet.length),
        gen_amino_acid_vocab alphabet (alphabet.get ⟨i, hi⟩).toUpper =
          gen_amino_acid_vocab alphabet (alphabet.get ⟨j, hj⟩).toUpper → i = j) ∧
    (∀ v : Nat, (∃ c, gen_amino_acid_vocab alphabet c = some v) ↔
        1 ≤ v ∧ v ≤ alphabet.length) ∧
    (∀ c : Char, (∀ aa ∈ alphabet, c ∉ letterKeys aa) →
        encodeChar (gen_amino_acid_vocab alphabet) c = 0) := by
  have hdisj2 : ∀ (i j : Nat) (hi : i < alphabet.length) (hj : j < alphabet.length),
      i ≠ j → ∀ c, c ∈ letterKeys (alphabet.get ⟨i, hi⟩) →
        c ∉ letterKeys (alphabet.get ⟨j, hj⟩) := by
    intro i j hi hj hne c hc
    rcases Nat.lt_or_ge i j with hlt | hge
    · exact (List.pairwise_iff_get.mp hdisj ⟨i, hi⟩ ⟨j, hj⟩ hlt) c hc
    · have hlt : j < i := by omega
      intro hcj
      exact (List.pairwise_iff_get.mp hdisj ⟨j, hj⟩ ⟨i, hi⟩ hlt) c hcj hc
  have hmain : ∀ (i : Nat) (hi : i < alphabet.length),
      gen_amino_acid_vocab alphabet (alphabet.get ⟨i, hi⟩).toUpper = some (i + 1) ∧
      gen_amino_acid_vocab alphabet (alphabet.get ⟨i, hi⟩).toLower = some (i + 1) := by
    intro i hi
    constructor
    · rw [gen_amino_acid_vocab_eq_lastKeyIdx, lastKeyIdx,
        lastKeyIdxAux_unique alphabet _ i hi (by simp [letterKeys])
          (fun k2 hk2 hne => hdisj2 i k2 hi hk2 (fun h => hne h.symm) _
            (by simp [letterKeys]))]
      simp
    · rw [gen_amino_acid_vocab_eq_lastKeyIdx, lastKeyIdx,
        lastKeyIdxAux_unique alphabet _ i hi (by simp [letterKeys])
          (fun k2 hk2 hne => hdisj2 i k2 hi hk2 (fun h => hne h.symm) _
            (by simp [letterKeys]))]
      simp
  refine ⟨hmain, ?_, ?_, ?_⟩
  · intro i j hi hj heq
    rw [(hmain i hi).1, (hmain j hj).1] at heq
    simpa using heq
  · intro v
    constructor
    · rintro ⟨c, hc⟩
      rw [gen_amino_acid_vocab_eq_lastKeyIdx] at hc
      cases hl : lastKeyIdx alphabet c with
      | none => rw [hl] at hc; simp at hc
      | some j =>
          rw [hl] at hc
          simp only [Option.some.injEq] at hc
          obtain ⟨k, hk, hjk, -⟩ := lastKeyIdxAux_eq_some alphabet 0 c j hl
          omega
    · rintro ⟨h1, h2⟩
      refine ⟨(alphabet.get ⟨v - 1, by omega⟩).toUpper, ?_⟩
      rw [(hmain (v - 1) (by omega)).1]
      simp only [Option.some.injEq]
      omega
  · intro c hc
    have hnone := (lastKeyIdxAux_eq_none alphabet 0 c).mpr hc
    simp only [encodeChar, gen_amino_acid_vocab_eq_lastKeyIdx, lastKeyIdx, hnone]
    rfl

/-- Witness for C8 at the concrete alphabet `"AB"`. -/
theorem C8_vocab_bijection_witness :
    (['A', 'B'].Pairwise
        (fun a b => ∀ c, c ∈ letterKeys a → c ∉ letterKeys b)) ∧
    ((∀ (i : Nat) (hi : i < (['A', 'B'] : List Char).length),
        gen_amino_acid_vocab ['A', 'B'] ((['A', 'B'] : List Char).get ⟨i, hi⟩).toUpper
          = some (i + 1) ∧
        gen_amino_acid_vocab ['A', 'B'] ((['A', 'B'] : List Char).get ⟨i, hi⟩).toLower
          = some (i + 1)) ∧
    (∀ (i j : Nat) (hi : i < (['A', 'B'] : List Char).length)
        (hj : j < (['A', 'B'] : List Char).length),
        gen_amino_acid_vocab ['A', 'B'] ((['A', 'B'] : List Char).get ⟨i, hi⟩).toUpper =
          gen_amino_acid_vocab ['A', 'B'] ((['A', 'B'] : List Char).get ⟨j, hj⟩).toUpper
          → i = j) ∧
    (∀ v : Nat, (∃ c, gen_amino_acid_vocab ['A', 'B'] c = some v) ↔
        1 ≤ v ∧ v ≤ (['A', 'B'] : List Char).length) ∧
    (∀ c : Char, (∀ aa ∈ (['A', 'B'] : List Char), c ∉ letterKeys aa) →
        encodeChar (gen_amino_acid_vocab ['A', 'B']) c = 0)) :=
  ⟨by decide, C8_vocab_bijection ['A', 'B'] (by decide)⟩

/-! ## Batch collator (`collate_sequences`, `dataset.py` lines 52–130) -/

/-- The `collated_sequences` namedtuple. -/
structure CollatedSequences where
  indices : List Int
  ids : List String
  sequences : List (List Nat)
  labels : Option (List Int)
  deriving DecidableEq, Repr

/-- Lines 84–91: `max_len = min_length; for seq in batch: ... if
sequence_len > max_len: max_len = sequence_len`. -/
def computeMaxLen (batch : List SequenceTuple) (min_length : Nat) : Nat :=
  batch.foldl (fun m s => if s.encoded.length > m then s.encoded.length else m)
    min_length

/-- Spec-side maximum encoded length of a batch. -/
def maxEncLen (batch : List SequenceTuple) : Nat :=
  (batch.map (fun s => s.encoded.length)).foldr Nat.max 0

/-- One zero-filled row of width `maxLen` with `vals` written at
`[start, start + len)`, the result of `sequences[i, start:end] = sequence`
on a row of `np.zeros`. -/
def padRow (maxLen start : Nat) (vals : List Nat) : List Nat :=
  (List.range maxLen).map
    (fun j => if start ≤ j ∧ j < start + vals.length then vals.getD (j - start) 0
              else 0)

/-- Lines 96–107, the loop body for row `i` (`p = (i, seq)`): if
`random_padding and len(sequence) < max_len`, the start offset is
`np.random.choice(n_zeros + 1)` — modelled as `rand i % (n_zeros + 1)` —
otherwise `0`. -/
def collateRow (max_len : Nat) (random_padding : Bool) (rand : Nat → Nat)
    (p : Nat × SequenceTuple) : List Nat :=
  let L := p.2.encoded.length
  let start := if random_padding ∧ L < max_len then rand p.1 % (max_len - L + 1)
               else 0
  padRow max_len start p.2.encoded

/-- The call `torch.utils.data.dataloader.default_collate` applied to the stacked
`np.zeros((n_data, max_len))` array: its first step reads `batch[0]`, so an
empty first axis raises `IndexError`; otherwise it returns the same rows as
a tensor. -/
def default_collate (rows : List (List Nat)) : Except String (List (List Nat)) :=
  match rows with
  | [] => .error "IndexError: index 0 is out of bounds"
  | _ => .ok rows

/-- Function `collate_sequences(batch, zero_padding, min_length, random_padding)`
from `dataset.py` lines 52–130, for a batch given as a list (a single
sample is wrapped into a one-element list by the source before this
point).  Label collation (lines 121–125) sets `labels` to `None` unless
every record carries a label (a `None` entry makes `np.array(...,
dtype=int)` raise `TypeError`, which is caught). -/
def collate_sequences (batch : List SequenceTuple) (zero_padding : Bool)
    (min_length : Nat) (random_padding : Bool) (rand : Nat → Nat) :
    Except String CollatedSequences :=
  let max_len := computeMaxLen batch min_length
  if zero_padding then
    match default_collate (batch.enum.map (collateRow max_len random_padding rand)) with
    | .error e => .error e
    | .ok sequences =>
        .ok { indices := batch.map (fun s => s.index)
              ids := batch.map (fun s => s.id)
              sequences := sequences
              labels := if batch.all (fun b => b.label.isSome)
                        then some (batch.map (fun b => b.label.getD 0))
                        else none }
  else .error "NotImplementedError: Batching requires zero padding!"

theorem computeMaxLen_eq (batch : List SequenceTuple) (ml : Nat) :
    computeMaxLen batch ml = Nat.max ml (maxEncLen batch) := by
  induction batch generalizing ml with
  | nil => simp [computeMaxLen, maxEncLen]
  | cons s t ih =>
      have hif : (if s.encoded.length > ml then s.encoded.length else ml)
          = Nat.max ml s.encoded.length := by
        split
        · exact (Nat.max_eq_right (Nat.le_of_lt (by assumption))).symm
        · exact (Nat.max_eq_left (Nat.le_of_not_lt (by assumption))).symm
      simp only [computeMaxLen, List.foldl_cons] at ih ⊢
      rw [hif, ih]
      simp only [maxEncLen, List.map_cons, List.foldr_cons]
      exact Nat.max_assoc _ _ _

theorem le_maxEncLen (batch : List SequenceTuple) (s : SequenceTuple)
    (hs : s ∈ batch) : s.encoded.length ≤ maxEncLen batch := by
  induction batch with
  | nil => simp at hs
  | cons b t ih =>
      simp only [maxEncLen, List.map_cons, List.foldr_cons]
      rcases List.mem_cons.mp hs with h | h
      · subst h; exact Nat.le_max_left _ _
      · exact le_trans (ih h) (Nat.le_max_right _ _)

theorem padRow_length (maxLen start : Nat) (vals : List Nat) :
    (padRow maxLen start vals).length = maxLen := by
  simp [padRow]

theorem padRow_getD (maxLen start : Nat) (vals : List Nat) (j : Nat)
    (hj : j < maxLen) (d : Nat) :
    (padRow maxLen start vals).getD j d =
      if start ≤ j ∧ j < start + vals.length then vals.getD (j - start) 0
      else 0 := by
  have hlen : j < (padRow maxLen start vals).length := by
    rw [padRow_length]; exact hj
  rw [List.getD_eq_getElem _ _ hlen]
  simp [padRow]

/-- Claim C6: `collate_sequences` fails in exactly two configuration
cases — zero padding disabled, or an empty input batch — and succeeds in
every other case. -/
theorem C6_collate_error_cases (batch : List SequenceTuple)
    (zero_padding : Bool) (min_length : Nat) (random_padding : Bool)
    (rand : Nat → Nat) :
    (∃ e, collate_sequences batch zero_padding min_length random_padding rand
        = .error e)
      ↔ (zero_padding = false ∨ batch = []) := by
  cases zero_padding
  · simp [collate_sequences]
  · cases batch with
    | nil => simp [collate_sequences, default_collate]
    | cons b t => simp [collate_sequences, default_collate, List.enum_cons]

/-- Claim C5: with zero padding enabled and a non-empty batch, collation
succeeds; every row has width `max(min_length, longest encoded record)`;
row `i` is record `i`'s encoded values placed at some offset `start` with
zeros everywhere outside the placed segment; `start = 0` when random
padding is off, while with random padding on, a strictly shorter record is
placed at `rand i % (max_len − len + 1)` — which ranges over exactly
`[0, max_len − len]` as the oracle `rand` varies, the uniform draw
`np.random.choice(n_zeros + 1)`. -/
theorem C5_collate_padding (batch : List SequenceTuple) (min_length : Nat)
    (random_padding : Bool) (rand : Nat → Nat) (hne : batch ≠ []) :
    ∃ c : CollatedSequences,
      collate_sequences batch true min_length random_padding rand = .ok c ∧
      c.sequences.length = batch.length ∧
      (∀ row ∈ c.sequences, row.length = Nat.max min_length (maxEncLen batch)) ∧
      (∀ (i : Nat) (hi : i < batch.length),
        ∃ start : Nat,
          start + (batch.get ⟨i, hi⟩).encoded.length
              ≤ Nat.max min_length (maxEncLen batch) ∧
          c.sequences.getD i [] =
            padRow (Nat.max min_length (maxEncLen batch)) start
              (batch.get ⟨i, hi⟩).encoded ∧
          (random_padding = false → start = 0) ∧
          (random_padding = true →
            (batch.get ⟨i, hi⟩).encoded.length
                < Nat.max min_length (maxEncLen batch) →
            start = rand i % (Nat.max min_length (maxEncLen batch)
              - (batch.get ⟨i, hi⟩).encoded.length + 1)) ∧
          (∀ j, j < Nat.max min_length (maxEncLen batch) →
            (j < start ∨ start + (batch.get ⟨i, hi⟩).encoded.length ≤ j) →
            (c.sequences.getD i []).getD j 1 = 0)) := by
  classical
  set M := Nat.max min_length (maxEncLen batch) with hM
  set rows := batch.enum.map (collateRow M random_padding rand) with hrows
  have hrowslen : rows.length = batch.length := by simp [hrows]
  have hrne : rows ≠ [] := by
    intro h
    apply hne
    have := hrowslen
    rw [h] at this
    exact List.eq_nil_of_length_eq_zero this.symm
  obtain ⟨r0, rt, hr0⟩ := List.exists_cons_of_ne_nil hrne
  have hdc : default_collate rows = .ok rows := by rw [hr0]; rfl
  have hcol : collate_sequences batch true min_length random_padding rand =
      .ok { indices := batch.map (fun s => s.index)
            ids := batch.map (fun s => s.id)
            sequences := rows
            labels := if batch.all (fun b => b.label.isSome)
                      then some (batch.map (fun b => b.label.getD 0))
                      else none } := by
    simp only [collate_sequences, computeMaxLen_eq, ← hM, ← hrows, hdc, if_true]
  refine ⟨_, hcol, ?_, ?_, ?_⟩
  · exact hrowslen
  · intro row hrow
    simp only [hrows, List.mem_map] at hrow
    obtain ⟨p, -, hp⟩ := hrow
    rw [← hp]
    simp only [collateRow]
    exact padRow_length _ _ _
  · intro i hi
    have hirow : i < rows.length := by rw [hrowslen]; exact hi
    have hget : rows.getD i [] = collateRow M random_padding rand
        (i, batch.get ⟨i, hi⟩) := by
      rw [List.getD_eq_getElem _ _ hirow]
      simp [hrows]
    have hlem : (batch.get ⟨i, hi⟩).encoded.length ≤ M := by
      rw [hM]
      exact le_trans (le_maxEncLen batch _ (batch.get_mem _ _)) (Nat.le_max_right _ _)
    by_cases hc : random_padding = true ∧ (batch.get ⟨i, hi⟩).encoded.length < M
    · refine ⟨rand i % (M - (batch.get ⟨i, hi⟩).encoded.length + 1), ?_, ?_, ?_, ?_, ?_⟩
      · have := Nat.mod_lt (rand i)
          (show 0 < M - (batch.get ⟨i, hi⟩).encoded.length + 1 by omega)
        omega
      · rw [hget]
        simp only [collateRow]
        rw [if_pos (by simpa using hc)]
      · intro h; rw [h] at hc; simp at hc
      · intro _ _; rfl
      · intro j hj hout
        rw [hget]
        simp only [collateRow]
        rw [if_pos (by simpa using hc)]
        rw [padRow_getD _ _ _ _ hj]
        rw [if_neg (by omega)]
    · refine ⟨0, by omega, ?_, fun _ => rfl, ?_, ?_⟩
      · rw [hget]
        simp only [collateRow]
        rw [if_neg (by simpa using hc)]
      · intro h1 h2
        exact absurd ⟨h1, h2⟩ hc
      · intro j hj hout
        rw [hget]
        simp only [collateRow]
        rw [if_neg (by simpa using hc)]
        rw [padRow_getD _ _ _ _ hj]
        rw [if_neg (by omega)]

/-- Witness for C5 at a concrete one-record batch. -/
theorem C5_collate_padding_witness :
    ([⟨0, "p1", "AB", [1, 2], none⟩] : List SequenceTuple) ≠ [] ∧
    (∃ c : CollatedSequences,
      collate_sequences [⟨0, "p1", "AB", [1, 2], none⟩] true 3 false
        (fun _ => 0) = .ok c ∧
      c.sequences.length = ([⟨0, "p1", "AB", [1, 2], none⟩] : List SequenceTuple).length ∧
      (∀ row ∈ c.sequences, row.length =
        Nat.max 3 (maxEncLen [⟨0, "p1", "AB", [1, 2], none⟩])) ∧
      (∀ (i : Nat) (hi : i < ([⟨0, "p1", "AB", [1, 2], none⟩] : List SequenceTuple).length),
        ∃ start : Nat,
          start + (([⟨0, "p1", "AB", [1, 2], none⟩] : List SequenceTuple).get
              ⟨i, hi⟩).encoded.length
              ≤ Nat.max 3 (maxEncLen [⟨0, "p1", "AB", [1, 2], none⟩]) ∧
          c.sequences.getD i [] =
            padRow (Nat.max 3 (maxEncLen [⟨0, "p1", "AB", [1, 2], none⟩])) start
              (([⟨0, "p1", "AB", [1, 2], none⟩] : List SequenceTuple).get ⟨i, hi⟩).encoded ∧
          (false = false → start = 0) ∧
          (false = true →
            (([⟨0, "p1", "AB", [1, 2], none⟩] : List SequenceTuple).get
                ⟨i, hi⟩).encoded.length
                < Nat.max 3 (maxEncLen [⟨0, "p1", "AB", [1, 2], none⟩]) →
            start = (fun _ => 0 : Nat → Nat) i %
              (Nat.max 3 (maxEncLen [⟨0, "p1", "AB", [1, 2], none⟩])
              - (([⟨0, "p1", "AB", [1, 2], none⟩] : List SequenceTuple).get
                  ⟨i, hi⟩).encoded.length + 1)) ∧
          (∀ j, j < Nat.max 3 (maxEncLen [⟨0, "p1", "AB", [1, 2], none⟩]) →
            (j < start ∨ start + (([⟨0, "p1", "AB", [1, 2], none⟩] :
                List SequenceTuple).get ⟨i, hi⟩).encoded.length ≤ j) →
            (c.sequences.getD i []).getD j 1 = 0))) :=
  ⟨List.cons_ne_nil _ _,
    C5_collate_padding [⟨0, "p1", "AB", [1, 2], none⟩] 3 false (fun _ => 0)
      (List.cons_ne_nil _ _)⟩

/-! ## Shuffle buffer stage (`ShuffledProteinDataset.__iter__`, lines 428–457)

The underlying sharded iterator is abstracted to the list of records it
yields (`input`).  The fill phase (lines 439–443) takes up to
`buffer_size` records and, on early exhaustion, shrinks `self.buffer_size`
to the number obtained.  The steady-state loop (lines 445–453) draws
`evict_idx = np.random.randint(0, self.buffer_size - 1)` — which raises
`ValueError` when `self.buffer_size - 1 ≤ 0` (modelled as `none`) and
otherwise yields a value in `[0, buffer_size - 1)`, modelled as
`rand i % (buffer_size - 1)` for the `i`-th draw — emits the record in
that slot, then overwrites the slot with the freshly pulled record.  The
drain loop (lines 454–455) pops from the end of the buffer: LIFO order,
i.e. the reversed buffer. -/

/-- Steady-state and drain phases.  `cap` is `self.buffer_size` after the
fill phase; `rest` is what remains of the underlying iterator; `buf` is
the shuffle buffer; `i` counts the random draws made so far. -/
def shuffleSteady (cap : Nat) (rand : Nat → Nat) :
    List α → List α → Nat → Option (List α)
  | [], buf, _ => some buf.reverse
  | item :: more, buf, i =>
      if cap - 1 = 0 then none
      else
        let idx := rand i % (cap - 1)
        match shuffleSteady cap rand more (buf.set idx item) (i + 1) with
        | none => none
        | some out => some (buf.getD idx item :: out)

/-- The full shuffle stage over a finite underlying record sequence:
fill phase, then steady state, then drain.  `none` models the
`ValueError` raised by `np.random.randint(0, 0)`. -/
def shuffleRun (buffer_size : Nat) (input : List α) (rand : Nat → Nat) :
    Option (List α) :=
  shuffleSteady (input.take buffer_size).length rand (input.drop buffer_size)
    (input.take buffer_size) 0

/-- Emitting the occupant of slot `idx` and overwriting the slot with the
new item is, as a multiset action, removing the occupant and adding the
item. -/
theorem getD_cons_set_perm (buf : List α) (idx : Nat) (item : α)
    (h : idx < buf.length) :
    (buf.getD idx item :: buf.set idx item).Perm (item :: buf) := by
  induction buf generalizing idx with
  | nil => simp at h
  | cons b t ih =>
      cases idx with
      | zero =>
          simp only [List.getD_cons_zero, List.set_cons_zero]
          exact List.Perm.swap item b t
      | succ k =>
          have hk : k < t.length := Nat.lt_of_succ_lt_succ h
          simp only [List.getD_cons_succ, List.set_cons_succ]
          have h1 : (t.getD k item :: b :: t.set k item).Perm
              (b :: t.getD k item :: t.set k item) := List.Perm.swap b _ _
          have h2 : (b :: t.getD k item :: t.set k item).Perm (b :: item :: t) :=
            List.Perm.cons b (ih k hk)
          have h3 : (b :: item :: t).Perm (item :: b :: t) := List.Perm.swap item b t
          exact (h1.trans h2).trans h3

/-- Steady state with a full buffer of size `≥ 2` never fails and emits a
permutation of everything it consumes plus the buffer contents. -/
theorem shuffleSteady_perm (cap : Nat) (rand : Nat → Nat) (hcap : 2 ≤ cap) :
    ∀ (rest buf : List α) (i : Nat), buf.length = cap →
      ∃ out, shuffleSteady cap rand rest buf i = some out ∧
        out.Perm (rest ++ buf) := by
  intro rest
  induction rest with
  | nil =>
      intro buf i hbuf
      exact ⟨buf.reverse, rfl, by simp⟩
  | cons item more ih =>
      intro buf i hbuf
      have hcap1 : cap - 1 ≠ 0 := by omega
      have hidx : rand i % (cap - 1) < cap - 1 := Nat.mod_lt _ (by omega)
      have hidxlen : rand i % (cap - 1) < buf.length := by omega
      obtain ⟨out2, hout2, hperm2⟩ :=
        ih (buf.set (rand i % (cap - 1)) item) (i + 1) (by simp [hbuf])
      refine ⟨buf.getD (rand i % (cap - 1)) item :: out2, ?_, ?_⟩
      · simp only [shuffleSteady, if_neg hcap1, hout2]
      · have p1 : (buf.getD (rand i % (cap - 1)) item :: out2).Perm
            (buf.getD (rand i % (cap - 1)) item ::
              (more ++ buf.set (rand i % (cap - 1)) item)) :=
          List.Perm.cons _ hperm2
        have p2 : (buf.getD (rand i % (cap - 1)) item ::
              (more ++ buf.set (rand i % (cap - 1)) item)).Perm
            (more ++ (buf.getD (rand i % (cap - 1)) item ::
              buf.set (rand i % (cap - 1)) item)) := List.perm_middle.symm
        have p3 : (more ++ (buf.getD (rand i % (cap - 1)) item ::
              buf.set (rand i % (cap - 1)) item)).Perm (more ++ (item :: buf)) :=
          List.Perm.append_left more (getD_cons_set_perm buf _ item hidxlen)
        have p4 : (more ++ (item :: buf)).Perm (item :: (more ++ buf)) :=
          List.perm_middle
        exact ((p1.trans p2).trans p3).trans p4

/-- The claim C3 as stated is false at capacity `C = 1`: over the
two-record stream `[0, 1]`, and for any random choices, the steady-state
draw `np.random.randint(0, 0)` raises `ValueError`, so the emitted records
are not a permutation of the input (nothing is emitted at all). -/
theorem C3_counterexample :
    shuffleRun 1 [0, 1] (fun _ => 0) = none ∧
    ¬ ∃ out : List Nat, shuffleRun 1 [0, 1] (fun _ => 0) = some out ∧
      out.Perm [0, 1] := by
  refine ⟨rfl, ?_⟩
  rintro ⟨out, hout, -⟩
  exact Option.noConfusion (hout.symm.trans rfl)

/-- Claim C3, amended: for every capacity `C ≥ 2` and every random
choice, the multiset of emitted records equals the multiset of input
records; for `C = 1` the stage only works on streams of length `≤ 1`
(where it emits the input unchanged) and raises `ValueError`
(`np.random.randint(0, 0)`) on any stream of length `≥ 2`. -/
theorem C3_shuffle_multiset_amended (input : List α) (rand : Nat → Nat)
    (C : Nat) :
    (2 ≤ C → ∃ out, shuffleRun C input rand = some out ∧ out.Perm input) ∧
    (C = 1 → input.length ≤ 1 → shuffleRun C input rand = some input) ∧
    (C = 1 → 2 ≤ input.length → shuffleRun C input rand = none) := by
  refine ⟨?_, ?_, ?_⟩
  · intro hC
    by_cases hlen : input.length ≤ C
    · refine ⟨input.reverse, ?_, List.reverse_perm input⟩
      simp only [shuffleRun, List.take_of_length_le hlen,
        List.drop_eq_nil_of_le hlen]
      rfl
    · have htake : (input.take C).length = C := by
        rw [List.length_take]
        omega
      obtain ⟨out, hout, hperm⟩ :=
        shuffleSteady_perm C rand hC (input.drop C) (input.take C) 0 htake
      refine ⟨out, ?_, ?_⟩
      · simp only [shuffleRun, htake]
        exact hout
      · have pc : (input.drop C ++ input.take C).Perm
            (input.take C ++ input.drop C) := List.perm_append_comm
        have := (hperm.trans pc)
        rwa [List.take_append_drop C input] at this
  · intro hC hlen
    subst hC
    cases input with
    | nil => rfl
    | cons a t =>
        cases t with
        | nil => rfl
        | cons b t2 => simp at hlen
  · intro hC hlen
    subst hC
    cases input with
    | nil => simp at hlen
    | cons a t =>
        cases t with
        | nil => simp at hlen
        | cons b t2 => rfl

/-- Witness for C3's amended theorem: capacity `2` over a three-record
stream with the oracle always choosing slot `0`. -/
theorem C3_shuffle_multiset_amended_witness :
    (2 ≤ 2) ∧ ∃ out : List Nat, shuffleRun 2 [5, 6, 7] (fun _ => 0) = some out
      ∧ out.Perm [5, 6, 7] :=
  ⟨Nat.le_refl 2,
    (C3_shuffle_multiset_amended [5, 6, 7] (fun _ => 0) 2).1 (Nat.le_refl 2)⟩

/-- Claim C4: in the steady state (buffer full, capacity `≥ 2`), the
evicted slot index is `rand i % (cap − 1)`, which lies in
`[0, cap − 1)` — the last slot index `cap − 1` is never selected, and every
index of `[0, cap − 1)` is attained by some oracle value (the uniform draw
`np.random.randint(0, cap − 1)`); the record occupying the chosen slot is
emitted before the new record overwrites that slot; and in the drain
phase the remaining buffered records are emitted in LIFO order (the
reversed buffer). -/
theorem C4_shuffle_mechanics (cap : Nat) (rand : Nat → Nat) (buf : List α)
    (item : α) (more : List α) (i : Nat) (hcap : 2 ≤ cap)
    (hbuf : buf.length = cap) :
    (rand i % (cap - 1) < cap - 1 ∧ rand i % (cap - 1) ≠ cap - 1) ∧
    shuffleSteady cap rand (item :: more) buf i =
      (shuffleSteady cap rand more (buf.set (rand i % (cap - 1)) item)
        (i + 1)).map (fun out => buf.getD (rand i % (cap - 1)) item :: out) ∧
    (∀ j, j < cap - 1 → ∃ r : Nat, r % (cap - 1) = j) ∧
    shuffleSteady cap rand [] buf i = some buf.reverse := by
  have hidx : rand i % (cap - 1) < cap - 1 := Nat.mod_lt _ (by omega)
  refine ⟨⟨hidx, by omega⟩, ?_, ?_, rfl⟩
  · simp only [shuffleSteady, if_neg (show cap - 1 ≠ 0 by omega)]
    cases shuffleSteady cap rand more (buf.set (rand i % (cap - 1)) item)
      (i + 1) <;> rfl
  · intro j hj
    exact ⟨j, Nat.mod_eq_of_lt hj⟩

/-- Witness for C4 at a concrete buffer of capacity 2. -/
theorem C4_shuffle_mechanics_witness :
    ((2 ≤ 2) ∧ ([10, 20] : List Nat).length = 2) ∧
    (((fun _ => 5 : Nat → Nat) 0 % (2 - 1) < 2 - 1 ∧
      (fun _ => 5 : Nat → Nat) 0 % (2 - 1) ≠ 2 - 1) ∧
    shuffleSteady 2 (fun _ => 5) [30] [10, 20] 0 =
      (shuffleSteady 2 (fun _ => 5) []
        (([10, 20] : List Nat).set ((fun _ => 5 : Nat → Nat) 0 % (2 - 1)) 30)
        (0 + 1)).map
        (fun out => ([10, 20] : List Nat).getD
          ((fun _ => 5 : Nat → Nat) 0 % (2 - 1)) 30 :: out) ∧
    (∀ j, j < 2 - 1 → ∃ r : Nat, r % (2 - 1) = j) ∧
    shuffleSteady 2 (fun _ => 5) ([] : List Nat) [10, 20] 0 =
      some ([10, 20] : List Nat).reverse) :=
  ⟨⟨Nat.le_refl 2, rfl⟩,
    C4_shuffle_mechanics 2 (fun _ => 5) [10, 20] 30 [] 0 (Nat.le_refl 2) rfl⟩

/-! ## Sharded record iterator (`ProteinIterator`, lines 182–312)

The underlying `SeqIO.parse` stream is modelled as the list of raw records
it would yield; `_consume(iterator, n)` is `List.drop n`; `StopIteration`
is the empty remainder. -/

/-- Line 49: `UNINITIALIZED_POS = -999`. -/
def UNINITIALIZED_POS : Int := -999

/-- Per-iterator values fixed by `ProteinIterator.__init__` (lines
230–260): the label flag and lookup (`has_labels`, `label_from_id`), the
vocabulary, the start position `start = worker_id` and the per-call skip
width `step = num_workers - 1`. -/
structure PIConfig where
  has_labels : Bool
  label_from_id : String → Option Int
  vocab : Char → Option Nat
  start : Nat
  step : Nat

/-- Mutable iterator state: the not-yet-consumed suffix of the underlying
stream, the cursor `self.pos`, the counter `self.n_skipped`, and how many
times `self.iterator.close()` has been invoked. -/
structure PIState where
  remaining : List Record
  pos : Int
  nSkipped : Nat
  closeCount : Nat
  deriving Repr

/-- The validity filter of `__next__` line 293: a record is skipped when
its id is empty, or labels are in use and no label exists for the id. -/
def invalidRecord (cfg : PIConfig) (r : Record) : Bool :=
  r.id = "" || (cfg.has_labels && (cfg.label_from_id r.id).isNone)

/-- The `sequence_tuple` built at lines 300–306: `index = self.pos`,
`encoded = [self.vocab.get(c, 0) for c in next_seq.seq]`,
`label = self.label_from_id.get(sequence_id)`. -/
def mkSequence (cfg : PIConfig) (r : Record) (pos : Int) : SequenceTuple :=
  { index := pos
    id := r.id
    string := r.seq
    encoded := r.seq.data.map (fun c => (cfg.vocab c).getD 0)
    label := cfg.label_from_id r.id }

/-- The pull/skip-retry loop of `__next__` (lines 287–299): pull the head
record; while it is invalid, increment `n_skipped`, `_consume` `step`
records, advance `pos += step + 1`, and pull again.  Returns the found
record with its position (`none` = `StopIteration`), the stream suffix
after the found record, the final `pos`, and the final counter value. -/
def findValid (cfg : PIConfig) :
    List Record → Int → Nat → Option (Record × Int) × List Record × Int × Nat
  | [], pos, nsk => (none, [], pos, nsk)
  | r :: rest, pos, nsk =>
      if invalidRecord cfg r then
        findValid cfg (rest.drop cfg.step) (pos + cfg.step + 1) (nsk + 1)
      else (some (r, pos), rest, pos, nsk)
termination_by l => l.length
decreasing_by
  simp only [List.length_drop, List.length_cons]
  omega

/-- One `ProteinIterator.__next__` call (lines 265–312).  Positioning
first: on the first call (`pos == UNINITIALIZED_POS`) `_consume` `start`
records and set `pos = start + 1`; on later calls `_consume` `step`
records and advance `pos += step + 1`.  Then run the pull/skip-retry
loop; on `StopIteration` (exhausted source) the underlying handle is
closed and `StopIteration` is re-raised (`none`). -/
def pnext (cfg : PIConfig) (s : PIState) : Option SequenceTuple × PIState :=
  let m := if s.pos = UNINITIALIZED_POS then s.remaining.drop cfg.start
           else s.remaining.drop cfg.step
  let q : Int := if s.pos = UNINITIALIZED_POS then (cfg.start : Int) + 1
                 else s.pos + cfg.step + 1
  match findValid cfg m q s.nSkipped with
  | (none, rem, qf, nskf) =>
      (none, { remaining := rem, pos := qf, nSkipped := nskf,
               closeCount := s.closeCount + 1 })
  | (some (r, p), rem, _, nskf) =>
      (some (mkSequence cfg r p),
       { remaining := rem, pos := p, nSkipped := nskf,
         closeCount := s.closeCount })

theorem findValid_some_sublen (cfg : PIConfig) :
    ∀ (n : Nat) (m : List Record), m.length ≤ n → ∀ (q : Int) (nsk : Nat)
      (r : Record) (p : Int) (rem : List Record) (qf : Int) (nskf : Nat),
      findValid cfg m q nsk = (some (r, p), rem, qf, nskf) →
      rem.length < m.length := by
  intro n
  induction n with
  | zero =>
      intro m hm q nsk r p rem qf nskf h
      have : m = [] := List.eq_nil_of_length_eq_zero (Nat.le_zero.mp hm)
      subst this
      simp [findValid] at h
  | succ n ih =>
      intro m hm q nsk r p rem qf nskf h
      cases m with
      | nil => simp [findValid] at h
      | cons r0 rest =>
          by_cases hinv : invalidRecord cfg r0
          · rw [findValid, if_pos hinv] at h
            have hlen : (rest.drop cfg.step).length ≤ n := by
              simp only [List.length_drop]
              simp only [List.length_cons] at hm
              omega
            have := ih (rest.drop cfg.step) hlen _ _ _ _ _ _ _ h
            simp only [List.length_drop] at this
            simp only [List.length_cons]
            omega
          · rw [findValid, if_neg hinv] at h
            simp only [Prod.mk.injEq] at h
            obtain ⟨-, hrem, -, -⟩ := h
            subst hrem
            simp only [List.length_cons]
            omega

def initPI (stream : List Record) (n0 : Nat) : PIState :=
  { remaining := stream, pos := UNINITIALIZED_POS, nSkipped := n0,
    closeCount := 0 }

/-- Constructor `ProteinIterator.__init__`: `labels is None` disables the label
requirement and leaves the lookup empty; `start = worker_id`,
`step = num_workers - 1`. -/
def mkConfig (labels : Option (String → Option Int))
    (vocab : Char → Option Nat) (num_workers worker_id : Nat) : PIConfig :=
  { has_labels := labels.isSome
    label_from_id := fun s => match labels with
      | none => none
      | some t => t s
    vocab := vocab
    start := worker_id
    step := num_workers - 1 }

theorem pnext_some_length (cfg : PIConfig) (s : PIState) (t : SequenceTuple)
    (sf : PIState) (h : pnext cfg s = (some t, sf)) :
    sf.remaining.length < s.remaining.length := by
  rw [pnext] at h
  cases hfv : findValid cfg
      (if s.pos = UNINITIALIZED_POS then s.remaining.drop cfg.start
       else s.remaining.drop cfg.step)
      (if s.pos = UNINITIALIZED_POS then (cfg.start : Int) + 1
       else s.pos + cfg.step + 1) s.nSkipped with
  | mk o rest =>
      rw [hfv] at h
      cases o with
      | none => simp at h
      | some rp =>
          obtain ⟨r, p⟩ := rp
          obtain ⟨rem, qf, nskf⟩ := rest
          simp only [Prod.mk.injEq] at h
          obtain ⟨-, hsf⟩ := h
          have hlt := findValid_some_sublen cfg
            (if s.pos = UNINITIALIZED_POS then s.remaining.drop cfg.start
             else s.remaining.drop cfg.step).length _ (Nat.le_refl _) _ _ _ _ _ _ _ hfv
          have hd : (if s.pos = UNINITIALIZED_POS then s.remaining.drop cfg.start
              else s.remaining.drop cfg.step).length ≤ s.remaining.length := by
            split <;> simp [List.length_drop]
          rw [← hsf]
          simp only
          omega

/-- Full consumption of the iterator: call `__next__` until
`StopIteration`, collecting the yielded sequence tuples, and return the
terminal state. -/
def runIter (cfg : PIConfig) (s : PIState) : List SequenceTuple × PIState :=
  match h : pnext cfg s with
  | (none, sf) => ([], sf)
  | (some t, sf) =>
      let rest := runIter cfg sf
      (t :: rest.1, rest.2)
termination_by s.remaining.length
decreasing_by exact pnext_some_length cfg s _ _ h

/-! Spec-side characterisation machinery: records paired with their
1-based positions in the original stream, and the every-`(step+1)`-th
subsequence a worker visits. -/

/-- Pair each record with its stream position, starting at `p`. -/
def indexedFrom (p : Int) : List Record → List (Int × Record)
  | [] => []
  | r :: rest => (p, r) :: indexedFrom (p + 1) rest

/-- Take the head, then every `(step+1)`-th later element. -/
def everyNth (step : Nat) : List α → List α
  | [] => []
  | a :: rest => a :: everyNth step (rest.drop step)
termination_by l => l.length
decreasing_by
  simp only [List.length_drop, List.length_cons]
  omega

/-- The strided walk a worker performs from the moment it is about to
pull the record at the head of the list: pull, count-and-stride on
invalid records, emit-and-stride on valid ones. -/
def specRun (cfg : PIConfig) : List (Int × Record) → List SequenceTuple × Nat
  | [] => ([], 0)
  | (p, r) :: rest =>
      let c := specRun cfg (rest.drop cfg.step)
      if invalidRecord cfg r then (c.1, c.2 + 1)
      else (mkSequence cfg r p :: c.1, c.2)
termination_by l => l.length
decreasing_by
  simp only [List.length_drop, List.length_cons]
  omega

theorem indexedFrom_drop (l : List Record) :
    ∀ (p : Int) (n : Nat), (indexedFrom p l).drop n = indexedFrom (p + n) (l.drop n) := by
  induction l with
  | nil => intro p n; simp [indexedFrom]
  | cons r rest ih =>
      intro p n
      cases n with
      | zero => simp [indexedFrom]
      | succ k =>
          simp only [indexedFrom, List.drop_succ_cons]
          rw [ih (p + 1) k]
          congr 1
          push_cast
          ring

theorem indexedFrom_mem (l : List Record) :
    ∀ (p : Int) (x : Int × Record), x ∈ indexedFrom p l ↔
      ∃ k, ∃ hk : k < l.length, x = (p + k, l.get ⟨k, hk⟩) := by
  induction l with
  | nil => intro p x; simp [indexedFrom]
  | cons r rest ih =>
      intro p x
      simp only [indexedFrom, List.mem_cons, ih (p + 1)]
      constructor
      · rintro (rfl | ⟨k, hk, rfl⟩)
        · exact ⟨0, by simp, by simp⟩
        · refine ⟨k + 1, by simpa using Nat.succ_lt_succ hk, ?_⟩
          simp only [List.get_cons_succ]
          congr 1
          push_cast
          ring
      · rintro ⟨k, hk, rfl⟩
        cases k with
        | zero => left; simp
        | succ k0 =>
            right
            refine ⟨k0, by simpa using Nat.lt_of_succ_lt_succ hk, ?_⟩
            simp only [List.get_cons_succ]
            congr 1
            push_cast
            ring

theorem indexedFrom_fst_bounds (l : List Record) :
    ∀ (p : Int) (x : Int × Record), x ∈ indexedFrom p l →
      p ≤ x.1 ∧ x.1 < p + l.length := by
  intro p x hx
  obtain ⟨k, hk, rfl⟩ := (indexedFrom_mem l p x).mp hx
  constructor
  · simp only
    omega
  · simp only
    omega

theorem indexedFrom_pairwise (l : List Record) :
    ∀ p : Int, (indexedFrom p l).Pairwise (fun x y => x.1 < y.1) := by
  induction l with
  | nil => intro p; exact List.Pairwise.nil
  | cons r rest ih =>
      intro p
      simp only [indexedFrom, List.pairwise_cons]
      refine ⟨?_, ih (p + 1)⟩
      intro y hy
      have := (indexedFrom_fst_bounds rest (p + 1) y hy).1
      omega

theorem indexedFrom_fst_inj (l : List Record) (p : Int) (i : Int)
    (r1 r2 : Record) (h1 : (i, r1) ∈ indexedFrom p l)
    (h2 : (i, r2) ∈ indexedFrom p l) : r1 = r2 := by
  obtain ⟨k1, hk1, he1⟩ := (indexedFrom_mem l p _).mp h1
  obtain ⟨k2, hk2, he2⟩ := (indexedFrom_mem l p _).mp h2
  simp only [Prod.mk.injEq] at he1 he2
  obtain ⟨hi1, hr1⟩ := he1
  obtain ⟨hi2, hr2⟩ := he2
  have hk : k1 = k2 := by omega
  subst hk
  rw [hr1, hr2]

theorem indexedFrom_countP (l : List Record) (q : Record → Bool) :
    ∀ p : Int, (indexedFrom p l).countP (fun pr => q pr.2) = l.countP q := by
  induction l with
  | nil => intro p; simp [indexedFrom]
  | cons r rest ih =>
      intro p
      simp only [indexedFrom, List.countP_cons, ih (p + 1)]

/-- Core bridge: the pull/skip-retry loop agrees with the strided spec
walk `specRun` over position-indexed records. -/
theorem findValid_spec (cfg : PIConfig) :
    ∀ (n : Nat) (m : List Record), m.length ≤ n → ∀ (q : Int) (nsk : Nat),
    (∀ rem qf nskf, findValid cfg m q nsk = (none, rem, qf, nskf) →
        rem = [] ∧ nskf = nsk + (specRun cfg (indexedFrom q m)).2 ∧
        (specRun cfg (indexedFrom q m)).1 = [] ∧ q ≤ qf) ∧
    (∀ r p rem qf nskf, findValid cfg m q nsk = (some (r, p), rem, qf, nskf) →
        ∃ d : Nat, nskf = nsk + d ∧ invalidRecord cfg r = false ∧ qf = p ∧
          q ≤ p ∧
          specRun cfg (indexedFrom q m) =
            (mkSequence cfg r p ::
              (specRun cfg (indexedFrom (p + cfg.step + 1)
                (rem.drop cfg.step))).1,
             d + (specRun cfg (indexedFrom (p + cfg.step + 1)
                (rem.drop cfg.step))).2)) := by
  intro n
  induction n with
  | zero =>
      intro m hm q nsk
      have hnil : m = [] := List.eq_nil_of_length_eq_zero (Nat.le_zero.mp hm)
      subst hnil
      constructor
      · intro rem qf nskf h
        simp only [findValid, Prod.mk.injEq] at h
        obtain ⟨-, hrem, hqf, hnskf⟩ := h
        refine ⟨hrem.symm, ?_, ?_, le_of_eq hqf⟩
        · simp [indexedFrom, specRun, ← hnskf]
        · simp [indexedFrom, specRun]
      · intro r p rem qf nskf h
        simp only [findValid, Prod.mk.injEq] at h
        exact absurd h.1 (by simp)
  | succ n ih =>
      intro m hm q nsk
      cases m with
      | nil =>
          constructor
          · intro rem qf nskf h
            simp only [findValid, Prod.mk.injEq] at h
            obtain ⟨-, hrem, hqf, hnskf⟩ := h
            refine ⟨hrem.symm, ?_, ?_, le_of_eq hqf⟩
            · simp [indexedFrom, specRun, ← hnskf]
            · simp [indexedFrom, specRun]
          · intro r p rem qf nskf h
            simp only [findValid, Prod.mk.injEq] at h
            exact absurd h.1 (by simp)
      | cons r0 rest =>
          have hlen : (rest.drop cfg.step).length ≤ n := by
            simp only [List.length_drop]
            simp only [List.length_cons] at hm
            omega
          have harith : q + 1 + (cfg.step : Int) = q + cfg.step + 1 := by ring
          by_cases hinv : invalidRecord cfg r0
          · have hspec : specRun cfg (indexedFrom q (r0 :: rest)) =
                ((specRun cfg (indexedFrom (q + cfg.step + 1)
                  (rest.drop cfg.step))).1,
                 (specRun cfg (indexedFrom (q + cfg.step + 1)
                  (rest.drop cfg.step))).2 + 1) := by
              rw [indexedFrom, specRun, if_pos hinv, indexedFrom_drop, harith]
            constructor
            · intro rem qf nskf h
              rw [findValid, if_pos hinv] at h
              obtain ⟨hrem, hnskf, hspec1, hq⟩ :=
                ((ih (rest.drop cfg.step) hlen (q + cfg.step + 1) (nsk + 1)).1)
                  rem qf nskf h
              refine ⟨hrem, ?_, ?_, ?_⟩
              · rw [hspec]
                omega
              · rw [hspec]
                exact hspec1
              · have hcast : (0 : Int) ≤ (cfg.step : Int) := Int.natCast_nonneg _
                omega
            · intro r p rem qf nskf h
              rw [findValid, if_pos hinv] at h
              obtain ⟨d, hd, hinv2, hqf, hqp, hspeceq⟩ :=
                ((ih (rest.drop cfg.step) hlen (q + cfg.step + 1) (nsk + 1)).2)
                  r p rem qf nskf h
              refine ⟨d + 1, by omega, hinv2, hqf, ?_, ?_⟩
              · have hcast : (0 : Int) ≤ (cfg.step : Int) := Int.natCast_nonneg _
                omega
              · rw [hspeceq] at hspec
                rw [hspec]
                simp only [Prod.mk.injEq, true_and]
                omega
          · have hspec : specRun cfg (indexedFrom q (r0 :: rest)) =
                (mkSequence cfg r0 q ::
                  (specRun cfg (indexedFrom (q + cfg.step + 1)
                    (rest.drop cfg.step))).1,
                 (specRun cfg (indexedFrom (q + cfg.step + 1)
                    (rest.drop cfg.step))).2) := by
              rw [indexedFrom, specRun, if_neg hinv, indexedFrom_drop, harith]
            constructor
            · intro rem qf nskf h
              rw [findValid, if_neg hinv] at h
              simp only [Prod.mk.injEq] at h
              exact absurd h.1 (by simp)
            · intro r p rem qf nskf h
              rw [findValid, if_neg hinv] at h
              simp only [Prod.mk.injEq] at h
              obtain ⟨hsome, hrem, hqf, hnskf⟩ := h
              simp only [Option.some.injEq, Prod.mk.injEq] at hsome
              obtain ⟨hr, hp⟩ := hsome
              subst hr
              subst hp
              subst hrem
              refine ⟨0, by omega, by simpa using hinv, hqf.symm, le_refl _, ?_⟩
              rw [hspec]
              simp only [Prod.mk.injEq, true_and]
              omega

/-- Running the iterator to exhaustion from any positioned state: the
output and final counters are `specRun` over the strided remainder; the
stream is fully consumed; `close` has been invoked once more; the cursor
only moved forward. -/
theorem runIter_positioned (cfg : PIConfig) :
    ∀ (n : Nat) (l : List Record), l.length ≤ n → ∀ (p : Int) (nsk cc : Nat),
      UNINITIALIZED_POS < p →
      ∃ pf : Int,
        runIter cfg ⟨l, p, nsk, cc⟩ =
          ((specRun cfg (indexedFrom (p + cfg.step + 1) (l.drop cfg.step))).1,
           ⟨[], pf,
            nsk + (specRun cfg (indexedFrom (p + cfg.step + 1)
              (l.drop cfg.step))).2,
            cc + 1⟩) ∧
        p < pf := by
  intro n
  induction n with
  | zero =>
      intro l hl p nsk cc hp
      have hnil : l = [] := List.eq_nil_of_length_eq_zero (Nat.le_zero.mp hl)
      subst hnil
      have hne : ¬ (p = UNINITIALIZED_POS) := by omega
      have hpn : pnext cfg ⟨[], p, nsk, cc⟩ =
          (none, ⟨[], p + cfg.step + 1, nsk, cc + 1⟩) := by
        simp [pnext, if_neg hne, findValid]
      refine ⟨p + cfg.step + 1, ?_, by omega⟩
      rw [runIter, hpn]
      simp [specRun, indexedFrom, List.drop_nil]
  | succ n ih =>
      intro l hl p nsk cc hp
      have hne : ¬ (p = UNINITIALIZED_POS) := by omega
      rcases hfv : findValid cfg (l.drop cfg.step) (p + cfg.step + 1) nsk
        with ⟨o, rem, qf, nskf⟩
      cases o with
      | none =>
          obtain ⟨hrem, hnskf, hspec1, hq⟩ :=
            (findValid_spec cfg (l.drop cfg.step).length _ (Nat.le_refl _)
              _ _).1 rem qf nskf hfv
          subst hrem
          have hpn : pnext cfg ⟨l, p, nsk, cc⟩ = (none, ⟨[], qf, nskf, cc + 1⟩) := by
            simp only [pnext, if_neg hne, hfv]
          refine ⟨qf, ?_, by omega⟩
          rw [runIter, hpn]
          simp only [Prod.mk.injEq, PIState.mk.injEq, true_and, and_true]
          exact ⟨hspec1.symm, by omega⟩
      | some rp =>
          obtain ⟨r, p1⟩ := rp
          obtain ⟨d, hd, hinv2, hqf, hqp, hspeceq⟩ :=
            (findValid_spec cfg (l.drop cfg.step).length _ (Nat.le_refl _)
              _ _).2 r p1 rem qf nskf hfv
          have hpn : pnext cfg ⟨l, p, nsk, cc⟩ =
              (some (mkSequence cfg r p1), ⟨rem, p1, nskf, cc⟩) := by
            simp only [pnext, if_neg hne, hfv]
          have hremlen : rem.length ≤ n := by
            have h1 := findValid_some_sublen cfg (l.drop cfg.step).length _
              (Nat.le_refl _) _ _ _ _ _ _ _ hfv
            have h2 : (l.drop cfg.step).length ≤ l.length := by
              rw [List.length_drop]
              omega
            omega
          have hp1 : UNINITIALIZED_POS < p1 := by omega
          obtain ⟨pf, hrun, hpf⟩ := ih rem hremlen p1 nskf cc hp1
          refine ⟨pf, ?_, by omega⟩
          rw [runIter, hpn]
          simp only [hrun, hspeceq, Prod.mk.injEq, PIState.mk.injEq, true_and,
            and_true]
          omega

/-- Running a freshly constructed iterator to exhaustion: the output is
`specRun` over the worker's strided view (drop `start`, walk with stride
`step + 1`, positions starting at `start + 1`); the skip counter grows by
the number of invalid visited records; `close` is invoked exactly once. -/
theorem runIter_init (cfg : PIConfig) (stream : List Record) (n0 : Nat) :
    ∃ pf : Int,
      runIter cfg (initPI stream n0) =
        ((specRun cfg (indexedFrom ((cfg.start : Int) + 1)
          (stream.drop cfg.start))).1,
         ⟨[], pf,
          n0 + (specRun cfg (indexedFrom ((cfg.start : Int) + 1)
            (stream.drop cfg.start))).2, 1⟩) ∧
      (cfg.start : Int) < pf := by
  have hU : UNINITIALIZED_POS = -999 := rfl
  rcases hfv : findValid cfg (stream.drop cfg.start) ((cfg.start : Int) + 1) n0
    with ⟨o, rem, qf, nskf⟩
  cases o with
  | none =>
      obtain ⟨hrem, hnskf, hspec1, hq⟩ :=
        (findValid_spec cfg (stream.drop cfg.start).length _ (Nat.le_refl _)
          _ _).1 rem qf nskf hfv
      subst hrem
      have hpn : pnext cfg (initPI stream n0) = (none, ⟨[], qf, nskf, 1⟩) := by
        simp only [pnext, initPI, eq_self_iff_true, if_true, Nat.zero_add, hfv]
      refine ⟨qf, ?_, by omega⟩
      rw [runIter, hpn]
      simp only [Prod.mk.injEq, PIState.mk.injEq, true_and, and_true]
      exact ⟨hspec1.symm, by omega⟩
  | some rp =>
      obtain ⟨r, p1⟩ := rp
      obtain ⟨d, hd, hinv2, hqf, hqp, hspeceq⟩ :=
        (findValid_spec cfg (stream.drop cfg.start).length _ (Nat.le_refl _)
          _ _).2 r p1 rem qf nskf hfv
      have hpn : pnext cfg (initPI stream n0) =
          (some (mkSequence cfg r p1), ⟨rem, p1, nskf, 0⟩) := by
        simp only [pnext, initPI, eq_self_iff_true, if_true, hfv]
      have hp1 : UNINITIALIZED_POS < p1 := by
        have := Int.natCast_nonneg cfg.start
        omega
      obtain ⟨pf, hrun, hpf⟩ :=
        runIter_positioned cfg rem.length rem (Nat.le_refl _) p1 nskf 0 hp1
      refine ⟨pf, ?_, ?_⟩
      · rw [runIter, hpn]
        simp only [hrun, hspeceq, Prod.mk.injEq, PIState.mk.injEq, true_and,
          and_true]
        omega
      · omega

theorem everyNth_zero (l : List α) : everyNth 0 l = l := by
  induction l with
  | nil => rw [everyNth]
  | cons a rest ih => rw [everyNth, List.drop_zero, ih]

theorem everyNth_sublist (st : Nat) :
    ∀ (n : Nat) (l : List α), l.length ≤ n → (everyNth st l).Sublist l := by
  intro n
  induction n with
  | zero =>
      intro l hl
      have : l = [] := List.eq_nil_of_length_eq_zero (Nat.le_zero.mp hl)
      subst this
      rw [everyNth]
  | succ n ih =>
      intro l hl
      cases l with
      | nil => rw [everyNth]
      | cons a rest =>
          rw [everyNth]
          refine List.Sublist.cons₂ a ?_
          refine (ih (rest.drop st) ?_).trans (List.drop_sublist st rest)
          rw [List.length_drop]
          simp only [List.length_cons] at hl
          omega

theorem specRun_everyNth (cfg : PIConfig) :
    ∀ (n : Nat) (il : List (Int × Record)), il.length ≤ n →
      specRun cfg il =
        ((everyNth cfg.step il).filterMap
          (fun pr => if invalidRecord cfg pr.2 then none
                     else some (mkSequence cfg pr.2 pr.1)),
         (everyNth cfg.step il).countP (fun pr => invalidRecord cfg pr.2)) := by
  intro n
  induction n with
  | zero =>
      intro il hl
      have : il = [] := List.eq_nil_of_length_eq_zero (Nat.le_zero.mp hl)
      subst this
      rw [everyNth, specRun]
      rfl
  | succ n ih =>
      intro il hl
      cases il with
      | nil =>
          rw [everyNth, specRun]
          rfl
      | cons pr rest =>
          obtain ⟨p, r⟩ := pr
          have hlen : (rest.drop cfg.step).length ≤ n := by
            rw [List.length_drop]
            simp only [List.length_cons] at hl
            omega
          rw [specRun, everyNth, List.filterMap_cons, List.countP_cons,
            ih (rest.drop cfg.step) hlen]
          by_cases h : invalidRecord cfg r
          · simp [h]
          · simp [h]

/-- Interleaving: the `W = st + 1` strided views starting at offsets
`0, …, st` together form a permutation of the whole list. -/
theorem flatMap_everyNth_perm (st : Nat) :
    ∀ l : List α, ((List.range (st + 1)).flatMap
      (fun w => everyNth st (l.drop w))).Perm l := by
  intro l
  induction l with
  | nil =>
      have hz : ∀ ws : List Nat,
          (ws.flatMap (fun w => everyNth st (([] : List α).drop w))) = [] := by
        intro ws
        induction ws with
        | nil => rfl
        | cons w rest ihw =>
            rw [List.flatMap_cons, ihw, List.drop_nil, everyNth,
              List.append_nil]
      rw [hz]
  | cons a t ih =>
      rw [List.range_succ_eq_map, List.flatMap_cons, List.flatMap_map,
        List.drop_zero, everyNth]
      have hfun : (fun w => everyNth st ((a :: t).drop (Nat.succ w))) =
          (fun w => everyNth st (t.drop w)) := by
        funext w
        rw [List.drop_succ_cons]
      rw [show (fun w => everyNth st (List.drop (Nat.succ w) (a :: t))) =
          (fun w => everyNth st (t.drop w)) from hfun]
      have hsplit : ((List.range (st + 1)).flatMap
            (fun w => everyNth st (t.drop w))) =
          (List.range st).flatMap (fun w => everyNth st (t.drop w)) ++
            everyNth st (t.drop st) := by
        rw [List.range_succ, List.flatMap_append, List.flatMap_cons]
        rw [List.flatMap_nil, List.append_nil]
      refine List.Perm.cons a ?_
      exact (List.perm_append_comm).trans (hsplit ▸ ih)

theorem filterMap_map_index (cfg : PIConfig) (il : List (Int × Record)) :
    (il.filterMap (fun pr => if invalidRecord cfg pr.2 then none
        else some (mkSequence cfg pr.2 pr.1))).map (fun t => t.index) =
      (il.filter (fun pr => ! invalidRecord cfg pr.2)).map (fun pr => pr.1) := by
  induction il with
  | nil => rfl
  | cons pr rest ih =>
      obtain ⟨p, r⟩ := pr
      by_cases h : invalidRecord cfg r
      · simp only [List.filterMap_cons, List.filter_cons, h, if_pos]
        simpa [h] using ih
      · simp only [List.filterMap_cons, List.filter_cons]
        simp only [h]
        simpa [h, mkSequence] using congrArg (List.cons p) ih

/-! Worker-level wrappers: each of the `W` workers runs its own
`ProteinIterator` over its own copy of the source with `start = worker_id`
and `step = num_workers - 1`, a private skip counter starting at `0`. -/

/-- One worker's full pass over its own copy of the stream. -/
def workerRun (labels : Option (String → Option Int))
    (vocab : Char → Option Nat) (stream : List Record)
    (num_workers worker_id : Nat) : List SequenceTuple × PIState :=
  runIter (mkConfig labels vocab num_workers worker_id) (initPI stream 0)

/-- The `index` values a worker emits, in emission order. -/
def workerIndices (labels : Option (String → Option Int))
    (vocab : Char → Option Nat) (stream : List Record)
    (num_workers worker_id : Nat) : List Int :=
  (workerRun labels vocab stream num_workers worker_id).1.map
    (fun t => t.index)

/-- A worker's final skip-counter value after full consumption. -/
def workerSkips (labels : Option (String → Option Int))
    (vocab : Char → Option Nat) (stream : List Record)
    (num_workers worker_id : Nat) : Nat :=
  (workerRun labels vocab stream num_workers worker_id).2.nSkipped

theorem invalidRecord_mkConfig (labels : Option (String → Option Int))
    (vocab : Char → Option Nat) (W1 w1 W2 w2 : Nat) :
    invalidRecord (mkConfig labels vocab W1 w1) =
      invalidRecord (mkConfig labels vocab W2 w2) := rfl

/-- Characterisation of one worker's full pass: its outputs are the valid
records of its strided view of the indexed stream; its skip counter counts
that view's invalid records; the source was consumed and closed once. -/
theorem workerRun_char (labels : Option (String → Option Int))
    (vocab : Char → Option Nat) (stream : List Record) (W w : Nat) :
    (workerRun labels vocab stream W w).1 =
      (everyNth (W - 1) ((indexedFrom 1 stream).drop w)).filterMap
        (fun pr => if invalidRecord (mkConfig labels vocab W w) pr.2 then none
                   else some (mkSequence (mkConfig labels vocab W w) pr.2 pr.1)) ∧
    (workerRun labels vocab stream W w).2.nSkipped =
      (everyNth (W - 1) ((indexedFrom 1 stream).drop w)).countP
        (fun pr => invalidRecord (mkConfig labels vocab W w) pr.2) ∧
    (workerRun labels vocab stream W w).2.closeCount = 1 ∧
    (workerRun labels vocab stream W w).2.remaining = [] := by
  obtain ⟨pf, hrun, -⟩ :=
    runIter_init (mkConfig labels vocab W w) stream 0
  simp only [show (mkConfig labels vocab W w).start = w from rfl] at hrun
  have hdrop : (indexedFrom 1 stream).drop w =
      indexedFrom ((w : Int) + 1) (stream.drop w) := by
    rw [indexedFrom_drop]
    congr 1
    ring
  have hspec := specRun_everyNth (mkConfig labels vocab W w)
    (indexedFrom ((w : Int) + 1) (stream.drop w)).length
    (indexedFrom ((w : Int) + 1) (stream.drop w)) (Nat.le_refl _)
  have hstep : (mkConfig labels vocab W w).step = W - 1 := rfl
  rw [workerRun, hrun, hdrop]
  refine ⟨?_, ?_, rfl, rfl⟩
  · rw [hspec, ← hstep]
  · rw [hspec, ← hstep]
    simp

theorem workerIndices_char (labels : Option (String → Option Int))
    (vocab : Char → Option Nat) (stream : List Record) (W w : Nat) :
    workerIndices labels vocab stream W w =
      ((everyNth (W - 1) ((indexedFrom 1 stream).drop w)).filter
        (fun pr => ! invalidRecord (mkConfig labels vocab 1 0) pr.2)).map
        (fun pr => pr.1) := by
  rw [workerIndices, (workerRun_char labels vocab stream W w).1,
    filterMap_map_index, invalidRecord_mkConfig labels vocab W w 1 0]

theorem mem_workerIndices (labels : Option (String → Option Int))
    (vocab : Char → Option Nat) (stream : List Record) (W w : Nat) (i : Int) :
    i ∈ workerIndices labels vocab stream W w ↔
      ∃ r : Record, (i, r) ∈ everyNth (W - 1) ((indexedFrom 1 stream).drop w) ∧
        invalidRecord (mkConfig labels vocab 1 0) r = false := by
  rw [workerIndices_char]
  simp only [List.mem_map, List.mem_filter]
  constructor
  · rintro ⟨⟨i1, r⟩, ⟨hmem, hval⟩, rfl⟩
    exact ⟨r, hmem, by simpa using hval⟩
  · rintro ⟨r, hmem, hval⟩
    exact ⟨(i, r), ⟨hmem, by simpa using hval⟩, rfl⟩

/-- Claim C1: for every finite record stream and every `W ≥ 1`, the
`index` values emitted by the `W` sharded iterators are strictly
increasing within each worker, pairwise disjoint across workers, and
their union is exactly the set emitted by a single iterator with `W = 1`,
namely the 1-based original-stream positions of the records passing the
validity filter — also in the presence of invalid records handled by the
skip-retry loop. -/
theorem C1_shard_partition (labels : Option (String → Option Int))
    (vocab : Char → Option Nat) (stream : List Record) (W : Nat)
    (hW : 1 ≤ W) :
    (∀ w, w < W → (workerIndices labels vocab stream W w).Pairwise (· < ·)) ∧
    (∀ w1 w2, w1 < W → w2 < W → w1 ≠ w2 → ∀ i,
      i ∈ workerIndices labels vocab stream W w1 →
        i ∉ workerIndices labels vocab stream W w2) ∧
    (∀ i, (∃ w, w < W ∧ i ∈ workerIndices labels vocab stream W w) ↔
      i ∈ workerIndices labels vocab stream 1 0) ∧
    (∀ i, i ∈ workerIndices labels vocab stream 1 0 ↔
      ∃ k, ∃ hk : k < stream.length, i = (k : Int) + 1 ∧
        invalidRecord (mkConfig labels vocab 1 0) (stream.get ⟨k, hk⟩)
          = false) := by
  have hsub : ∀ w : Nat,
      (everyNth (W - 1) ((indexedFrom 1 stream).drop w)).Sublist
        (indexedFrom 1 stream) :=
    fun w => (everyNth_sublist (W - 1) _ _ (Nat.le_refl _)).trans
      (List.drop_sublist w _)
  have hpw := indexedFrom_pairwise stream 1
  have hperm : ((List.range W).flatMap
      (fun w => everyNth (W - 1) ((indexedFrom 1 stream).drop w))).Perm
      (indexedFrom 1 stream) := by
    have h := flatMap_everyNth_perm (W - 1) (indexedFrom 1 stream)
    rwa [show W - 1 + 1 = W by omega] at h
  have hnd : (indexedFrom 1 stream).Nodup := by
    refine hpw.imp ?_
    intro a b hab heq
    rw [heq] at hab
    exact lt_irrefl _ hab
  have hflatnd : ((List.range W).flatMap
      (fun w => everyNth (W - 1) ((indexedFrom 1 stream).drop w))).Nodup :=
    (hperm.nodup_iff).mpr hnd
  have hpd := (List.nodup_flatMap.mp hflatnd).2
  have hdisjoint : ∀ w1 w2, w1 < W → w2 < W → w1 ≠ w2 →
      List.Disjoint (everyNth (W - 1) ((indexedFrom 1 stream).drop w1))
        (everyNth (W - 1) ((indexedFrom 1 stream).drop w2)) := by
    intro w1 w2 h1 h2 hne
    rcases Nat.lt_or_ge w1 w2 with hlt | hge
    · have h := List.pairwise_iff_get.mp hpd ⟨w1, by simpa using h1⟩
        ⟨w2, by simpa using h2⟩ (by simpa using hlt)
      simpa [List.getElem_range, Function.onFun] using h
    · have hlt2 : w2 < w1 := by omega
      have h := List.pairwise_iff_get.mp hpd ⟨w2, by simpa using h2⟩
        ⟨w1, by simpa using h1⟩ (by simpa using hlt2)
      have h2d : List.Disjoint
          (everyNth (W - 1) ((indexedFrom 1 stream).drop w2))
          (everyNth (W - 1) ((indexedFrom 1 stream).drop w1)) := by
        simpa [List.getElem_range, Function.onFun] using h
      exact h2d.symm
  refine ⟨?_, ?_, ?_, ?_⟩
  · intro w hw
    rw [workerIndices_char]
    rw [List.pairwise_map]
    refine List.Pairwise.sublist ?_ hpw
    exact (List.filter_sublist _).trans (hsub w)
  · intro w1 w2 h1 h2 hne i hi1 hi2
    obtain ⟨r1, hm1, hv1⟩ := (mem_workerIndices _ _ _ _ _ _).mp hi1
    obtain ⟨r2, hm2, hv2⟩ := (mem_workerIndices _ _ _ _ _ _).mp hi2
    have e1 : (i, r1) ∈ indexedFrom 1 stream := (hsub w1).subset hm1
    have e2 : (i, r2) ∈ indexedFrom 1 stream := (hsub w2).subset hm2
    have hr : r1 = r2 := indexedFrom_fst_inj stream 1 i r1 r2 e1 e2
    subst hr
    exact (hdisjoint w1 w2 h1 h2 hne) hm1 hm2
  · intro i
    have hsingle : i ∈ workerIndices labels vocab stream 1 0 ↔
        ∃ r : Record, (i, r) ∈ indexedFrom 1 stream ∧
          invalidRecord (mkConfig labels vocab 1 0) r = false := by
      rw [mem_workerIndices]
      rw [show (1 : Nat) - 1 = 0 from rfl, List.drop_zero, everyNth_zero]
    rw [hsingle]
    constructor
    · rintro ⟨w, hw, hi⟩
      obtain ⟨r, hmem, hv⟩ := (mem_workerIndices _ _ _ _ _ _).mp hi
      exact ⟨r, (hsub w).subset hmem, hv⟩
    · rintro ⟨r, hmem, hv⟩
      have : (i, r) ∈ (List.range W).flatMap
          (fun w => everyNth (W - 1) ((indexedFrom 1 stream).drop w)) :=
        hperm.mem_iff.mpr hmem
      obtain ⟨w, hwr, hmw⟩ := List.mem_flatMap.mp this
      exact ⟨w, List.mem_range.mp hwr,
        (mem_workerIndices _ _ _ _ _ _).mpr ⟨r, hmw, hv⟩⟩
  · intro i
    have hsingle : i ∈ workerIndices labels vocab stream 1 0 ↔
        ∃ r : Record, (i, r) ∈ indexedFrom 1 stream ∧
          invalidRecord (mkConfig labels vocab 1 0) r = false := by
      rw [mem_workerIndices]
      rw [show (1 : Nat) - 1 = 0 from rfl, List.drop_zero, everyNth_zero]
    rw [hsingle]
    constructor
    · rintro ⟨r, hmem, hv⟩
      obtain ⟨k, hk, hkeq⟩ := (indexedFrom_mem stream 1 _).mp hmem
      simp only [Prod.mk.injEq] at hkeq
      obtain ⟨hik, hrk⟩ := hkeq
      refine ⟨k, hk, by omega, ?_⟩
      rw [← hrk]
      exact hv
    · rintro ⟨k, hk, hik, hv⟩
      refine ⟨stream.get ⟨k, hk⟩, ?_, hv⟩
      rw [indexedFrom_mem]
      exact ⟨k, hk, by rw [hik]; congr 1; omega⟩

/-- Witness for C1 at a two-record stream with two workers (one record
invalid: empty id). -/
theorem C1_shard_partition_witness :
    (1 ≤ 2) ∧
    ((∀ w, w < 2 → (workerIndices none (fun _ => none)
        [⟨"a", "QQ"⟩, ⟨"", "R"⟩] 2 w).Pairwise (· < ·)) ∧
    (∀ w1 w2, w1 < 2 → w2 < 2 → w1 ≠ w2 → ∀ i,
      i ∈ workerIndices none (fun _ => none) [⟨"a", "QQ"⟩, ⟨"", "R"⟩] 2 w1 →
        i ∉ workerIndices none (fun _ => none) [⟨"a", "QQ"⟩, ⟨"", "R"⟩] 2 w2) ∧
    (∀ i, (∃ w, w < 2 ∧
        i ∈ workerIndices none (fun _ => none) [⟨"a", "QQ"⟩, ⟨"", "R"⟩] 2 w) ↔
      i ∈ workerIndices none (fun _ => none) [⟨"a", "QQ"⟩, ⟨"", "R"⟩] 1 0) ∧
    (∀ i, i ∈ workerIndices none (fun _ => none) [⟨"a", "QQ"⟩, ⟨"", "R"⟩] 1 0 ↔
      ∃ k, ∃ hk : k < ([⟨"a", "QQ"⟩, ⟨"", "R"⟩] : List Record).length,
        i = (k : Int) + 1 ∧
        invalidRecord (mkConfig none (fun _ => none) 1 0)
          (([⟨"a", "QQ"⟩, ⟨"", "R"⟩] : List Record).get ⟨k, hk⟩) = false)) :=
  ⟨by omega,
    C1_shard_partition none (fun _ => none) [⟨"a", "QQ"⟩, ⟨"", "R"⟩] 2
      (by omega)⟩

/-- Claim C2: after all `W` workers fully consume their iterators, the sum
of their final skip-counter values equals the number of stream records
that are invalid (empty id, or label required but missing); each worker
counts exactly the invalid records of its own strided shard. -/
theorem C2_skip_count_total (labels : Option (String → Option Int))
    (vocab : Char → Option Nat) (stream : List Record) (W : Nat)
    (hW : 1 ≤ W) :
    ((List.range W).map
      (fun w => workerSkips labels vocab stream W w)).sum =
      stream.countP (fun r => invalidRecord (mkConfig labels vocab 1 0) r) ∧
    (∀ w, w < W → workerSkips labels vocab stream W w =
      (everyNth (W - 1) ((indexedFrom 1 stream).drop w)).countP
        (fun pr => invalidRecord (mkConfig labels vocab 1 0) pr.2)) := by
  have hws : ∀ w, workerSkips labels vocab stream W w =
      (everyNth (W - 1) ((indexedFrom 1 stream).drop w)).countP
        (fun pr => invalidRecord (mkConfig labels vocab 1 0) pr.2) := by
    intro w
    rw [workerSkips, (workerRun_char labels vocab stream W w).2.1,
      invalidRecord_mkConfig labels vocab W w 1 0]
  refine ⟨?_, fun w _ => hws w⟩
  have hperm : ((List.range W).flatMap
      (fun w => everyNth (W - 1) ((indexedFrom 1 stream).drop w))).Perm
      (indexedFrom 1 stream) := by
    have h := flatMap_everyNth_perm (W - 1) (indexedFrom 1 stream)
    rwa [show W - 1 + 1 = W by omega] at h
  have hcount := List.countP_flatMap
    (fun pr : Int × Record => invalidRecord (mkConfig labels vocab 1 0) pr.2)
    (List.range W)
    (fun w => everyNth (W - 1) ((indexedFrom 1 stream).drop w))
  have hmapeq : (List.range W).map
      (fun w => workerSkips labels vocab stream W w) =
      (List.range W).map
        (List.countP (fun pr : Int × Record =>
          invalidRecord (mkConfig labels vocab 1 0) pr.2) ∘
        (fun w => everyNth (W - 1) ((indexedFrom 1 stream).drop w))) := by
    refine List.map_congr_left ?_
    intro w _
    exact hws w
  rw [hmapeq, ← hcount, hperm.countP_eq, indexedFrom_countP]

/-- Witness for C2 at a three-record stream (one invalid) with two
workers. -/
theorem C2_skip_count_total_witness :
    (1 ≤ 2) ∧
    (((List.range 2).map
      (fun w => workerSkips none (fun _ => none)
        [⟨"a", "Q"⟩, ⟨"", "R"⟩, ⟨"c", "S"⟩] 2 w)).sum =
      ([⟨"a", "Q"⟩, ⟨"", "R"⟩, ⟨"c", "S"⟩] : List Record).countP
        (fun r => invalidRecord (mkConfig none (fun _ => none) 1 0) r) ∧
    (∀ w, w < 2 → workerSkips none (fun _ => none)
        [⟨"a", "Q"⟩, ⟨"", "R"⟩, ⟨"c", "S"⟩] 2 w =
      (everyNth (2 - 1) ((indexedFrom 1
          [⟨"a", "Q"⟩, ⟨"", "R"⟩, ⟨"c", "S"⟩]).drop w)).countP
        (fun pr => invalidRecord (mkConfig none (fun _ => none) 1 0)
          pr.2))) :=
  ⟨by omega,
    C2_skip_count_total none (fun _ => none)
      [⟨"a", "Q"⟩, ⟨"", "R"⟩, ⟨"c", "S"⟩] 2 (by omega)⟩

/-! ## End-of-stream behaviour (claim C9) -/

/-- One `__next__` call on an already exhausted iterator: positioning
consumes nothing, the pull raises `StopIteration` immediately, `close()`
is invoked again, and `StopIteration` is re-raised. -/
theorem pnext_exhausted (cfg : PIConfig) (s : PIState)
    (hrem : s.remaining = []) (hpos : UNINITIALIZED_POS < s.pos) :
    pnext cfg s =
      (none, ⟨[], s.pos + cfg.step + 1, s.nSkipped, s.closeCount + 1⟩) := by
  have hne : ¬ (s.pos = UNINITIALIZED_POS) := by omega
  simp [pnext, if_neg hne, hrem, findValid, List.drop_nil]

/-- Iterate `k` further `next()` calls after a given state. -/
def nextCalls (cfg : PIConfig) (s : PIState) : Nat → PIState
  | 0 => s
  | k + 1 => (pnext cfg (nextCalls cfg s k)).2

theorem nextCalls_exhausted (cfg : PIConfig) :
    ∀ (k : Nat) (s : PIState), s.remaining = [] → UNINITIALIZED_POS < s.pos →
      (nextCalls cfg s k).remaining = [] ∧
      UNINITIALIZED_POS < (nextCalls cfg s k).pos ∧
      (nextCalls cfg s k).closeCount = s.closeCount + k ∧
      (nextCalls cfg s k).nSkipped = s.nSkipped ∧
      (pnext cfg (nextCalls cfg s k)).1 = none := by
  intro k
  induction k with
  | zero =>
      intro s h1 h2
      refine ⟨h1, h2, rfl, rfl, ?_⟩
      show (pnext cfg s).1 = none
      rw [pnext_exhausted cfg s h1 h2]
  | succ k ih =>
      intro s h1 h2
      obtain ⟨hr, hp, hc, hn, -⟩ := ih s h1 h2
      have hstep := pnext_exhausted cfg (nextCalls cfg s k) hr hp
      have hrw : nextCalls cfg s (k + 1) = (pnext cfg (nextCalls cfg s k)).2 :=
        rfl
      have hpos2 : UNINITIALIZED_POS <
          (nextCalls cfg s k).pos + (cfg.step : Int) + 1 := by
        have := Int.natCast_nonneg cfg.step
        omega
      refine ⟨?_, ?_, ?_, ?_, ?_⟩
      · rw [hrw, hstep]
      · rw [hrw, hstep]
        exact hpos2
      · rw [hrw, hstep]
        simp only
        omega
      · rw [hrw, hstep]
        exact hn
      · rw [hrw, hstep]
        have h3 := pnext_exhausted cfg
          ⟨[], (nextCalls cfg s k).pos + cfg.step + 1, (nextCalls cfg s k).nSkipped,
            (nextCalls cfg s k).closeCount + 1⟩ rfl hpos2
        rw [h3]

/-- The claim C9 as stated is false: on an empty stream, a second call to
`next()` after exhaustion invokes the underlying `close()` a second time
(`closeCount = 2`), so `close` is not invoked exactly once over the
iterator's lifetime when the consumer keeps calling `next` — though the
call does signal end-of-stream again. -/
theorem C9_counterexample :
    ((pnext (mkConfig none (fun _ => none) 1 0)
        ((pnext (mkConfig none (fun _ => none) 1 0)
          (initPI ([] : List Record) 0)).2)).2).closeCount = 2 ∧
    ((pnext (mkConfig none (fun _ => none) 1 0)
        (initPI ([] : List Record) 0)).2).closeCount = 1 ∧
    (pnext (mkConfig none (fun _ => none) 1 0)
        ((pnext (mkConfig none (fun _ => none) 1 0)
          (initPI ([] : List Record) 0)).2)).1 = none := by
  refine ⟨?_, ?_, ?_⟩ <;>
    simp [pnext, findValid, initPI, mkConfig, UNINITIALIZED_POS]

/-- Claim C9, amended: when the source signals end-of-data the iterator
closes it and becomes terminal — it yields no further records, and every
later `next()` call signals end-of-stream again; but `close` is invoked
once per end-of-data `next()` call (so exactly once only if the consumer
stops at the first `StopIteration`; `k` extra calls invoke it `k` more
times — harmless because generator `close` is idempotent). -/
theorem C9_close_per_call_amended (cfg : PIConfig) (stream : List Record)
    (n0 k : Nat) :
    (runIter cfg (initPI stream n0)).2.closeCount = 1 ∧
    (runIter cfg (initPI stream n0)).2.remaining = [] ∧
    (nextCalls cfg (runIter cfg (initPI stream n0)).2 k).closeCount = 1 + k ∧
    (pnext cfg (nextCalls cfg (runIter cfg (initPI stream n0)).2 k)).1
      = none := by
  obtain ⟨pf, hrun, hpf⟩ := runIter_init cfg stream n0
  have h1 : (runIter cfg (initPI stream n0)).2.closeCount = 1 := by rw [hrun]
  have h2 : (runIter cfg (initPI stream n0)).2.remaining = [] := by rw [hrun]
  have hpos : UNINITIALIZED_POS < (runIter cfg (initPI stream n0)).2.pos := by
    rw [hrun]
    have hU : UNINITIALIZED_POS = -999 := rfl
    have := Int.natCast_nonneg cfg.start
    simp only
    omega
  obtain ⟨-, -, hc, -, hnone⟩ := nextCalls_exhausted cfg k _ h2 hpos
  refine ⟨h1, h2, ?_, hnone⟩
  rw [hc, h1]

/-! ## `ProteinDataset.__iter__` and the skip counter (claim C10) -/

/-- The dataset object: label table, vocabulary, and the
`SynchronizedCounter` field `n_skipped`. -/
structure ProteinDataset where
  labels : Option (String → Option Int)
  vocab : Char → Option Nat
  n_skipped : Nat

/-- Constructor `ProteinDataset.__init__` ends with
`self.n_skipped = SynchronizedCounter(init=0)`. -/
def ProteinDataset.make (labels : Option (String → Option Int))
    (vocab : Char → Option Nat) : ProteinDataset :=
  { labels := labels, vocab := vocab, n_skipped := 0 }

/-- The `torch.utils.data.get_worker_info()` result: worker count and id. -/
structure WorkerInfo where
  num_workers : Nat
  id : Nat

/-- Method `ProteinDataset.__iter__` (lines 385–395): without a worker context
the `ProteinIterator` is built with the plain integer literal `0` as its
`n_skipped` — not aliased to the dataset's counter (flag `false`); with a
worker context it receives the shared `SynchronizedCounter` (aliased,
flag `true`) together with the worker's shard parameters. -/
def ProteinDataset.iter (d : ProteinDataset) (stream : List Record)
    (wi : Option WorkerInfo) : (PIConfig × PIState) × Bool :=
  match wi with
  | none => ((mkConfig d.labels d.vocab 1 0, initPI stream 0), false)
  | some w => ((mkConfig d.labels d.vocab w.num_workers w.id,
      initPI stream d.n_skipped), true)

/-- Counter aliasing semantics: `self.n_skipped += 1` on a plain `int`
rebinds a private attribute of the iterator and cannot reach the
dataset; on the shared `SynchronizedCounter` every increment is visible,
so after full consumption the dataset's counter holds the iterator's
final count. -/
def datasetCounterAfterRun (d : ProteinDataset)
    (it : (PIConfig × PIState) × Bool) : Nat :=
  if it.2 then (runIter it.1.1 it.1.2).2.nSkipped else d.n_skipped

/-- Claim C10: in single-process iteration the dataset's `n_skipped`
counter is not shared with the iterator and stays `0` after full
consumption, while the iterator's private integer accumulates the number
of invalid records; only multi-worker iteration shares the dataset's
counter. -/
theorem C10_private_skip_counter (labels : Option (String → Option Int))
    (vocab : Char → Option Nat) (stream : List Record) :
    ((ProteinDataset.make labels vocab).iter stream none).2 = false ∧
    datasetCounterAfterRun (ProteinDataset.make labels vocab)
      ((ProteinDataset.make labels vocab).iter stream none) = 0 ∧
    (runIter ((ProteinDataset.make labels vocab).iter stream none).1.1
      ((ProteinDataset.make labels vocab).iter stream none).1.2).2.nSkipped =
      stream.countP (fun r => invalidRecord (mkConfig labels vocab 1 0) r) ∧
    (∀ wi : WorkerInfo,
      ((ProteinDataset.make labels vocab).iter stream (some wi)).2
        = true) := by
  refine ⟨rfl, rfl, ?_, fun wi => rfl⟩
  have h := (workerRun_char labels vocab stream 1 0).2.1
  rw [workerRun] at h
  rw [show ((ProteinDataset.make labels vocab).iter stream none).1.1
      = mkConfig labels vocab 1 0 from rfl,
    show ((ProteinDataset.make labels vocab).iter stream none).1.2
      = initPI stream 0 from rfl, h,
    show (1 : Nat) - 1 = 0 from rfl, List.drop_zero, everyNth_zero,
    indexedFrom_countP]

end Deepnog
